import Mathlib

/-!
# NetPulse network-monitor sampling engine: a shallow embedding

This file embeds the metrics engine of `src/main.py` (rate sampler,
quality classifier, series splitter, adapter picker, ping parser,
history ring buffers, probe counters) as executable Lean definitions,
and proves the spec's claims about them.

Python floats are modelled by `PFloat`: rationals for finite values,
plus explicit NaN and signed-infinity constructors. Arithmetic in the
sampler stays inside small rationals where IEEE doubles are exact.
-/

namespace NetPulse

/-- A Python float value: NaN, +inf, -inf, or a finite number
(modelled exactly as a rational). -/
inductive PFloat where
  | nan : PFloat
  | inf : PFloat
  | ninf : PFloat
  | fin : ℚ → PFloat
deriving DecidableEq, Repr

/-! ## Rate sampler (`NetPulseWindow.tick_stats`, per-adapter branch) -/

/-- Per-adapter baseline kept in `self.nic_last[nic]`: last cumulative
`bytes_sent`, `bytes_recv` (non-negative OS counters) and the monotonic
timestamp of that observation. -/
structure NicLast where
  sent : ℕ
  recv : ℕ
  t : ℚ
deriving DecidableEq, Repr

/-- The rate triple stored into `self.nic_speed_up_mbps[nic]`,
`self.nic_speed_down_mbps[nic]`, `self.nic_speed_total_mbps[nic]`. -/
structure Rates where
  up : ℚ
  down : ℚ
  total : ℚ
deriving DecidableEq, Repr

/-- `max(0, cur - prev)` on cumulative counters, as in
`d_sent = max(0, sent - psent)`: the byte delta clamped at zero. -/
def clampDelta (prev cur : ℕ) : ℤ :=
  max 0 ((cur : ℤ) - (prev : ℤ))

/-- One adapter's slice of a stats tick (`tick_stats`, the
`for nic, c in pernic.items()` loop body): given the stored baseline
(`none` when `nic not in self.nic_last`), the freshly read cumulative
counters and the monotonic clock, return the new baseline and the
stored rate triple. -/
def tick_nic (st : Option NicLast) (sent recv : ℕ) (now : ℚ) :
    NicLast × Rates :=
  match st with
  | none => (⟨sent, recv, now⟩, ⟨0, 0, 0⟩)
  | some prev =>
      let dt := max (50 / 1000 : ℚ) (now - prev.t)
      let dSent := clampDelta prev.sent sent
      let dRecv := clampDelta prev.recv recv
      let upMbps := (dSent : ℚ) * 8 / dt / 1000000
      let downMbps := (dRecv : ℚ) * 8 / dt / 1000000
      let totalMbps := upMbps + downMbps
      (⟨sent, recv, now⟩,
       ⟨max 0 upMbps, max 0 downMbps, max 0 totalMbps⟩)

/-- Reference definition, written from the spec's words for claim C1:
`dt = max(minDt, now - lastTimestamp)`, `deltaSent = max(0, sent - lastSent)`,
`deltaRecv = max(0, recv - lastRecv)`, `upMbps = deltaSent*8/dt/1e6`,
`downMbps = deltaRecv*8/dt/1e6`, `totalMbps = upMbps + downMbps`,
with `minDt = 0.050 s`. -/
def ratesSpecC1 (lastSent lastRecv : ℕ) (lastT : ℚ) (sent recv : ℕ)
    (now : ℚ) : Rates :=
  let dt := max (50 / 1000 : ℚ) (now - lastT)
  let deltaSent := max 0 ((sent : ℤ) - (lastSent : ℤ))
  let deltaRecv := max 0 ((recv : ℤ) - (lastRecv : ℤ))
  let upMbps := (deltaSent : ℚ) * 8 / dt / 1000000
  let downMbps := (deltaRecv : ℚ) * 8 / dt / 1000000
  ⟨upMbps, downMbps, upMbps + downMbps⟩

/-! ## Quality classifier (`quality_color`) -/

def GREEN : String := "#4dff88"
def YELLOW : String := "#ffd24d"
def RED : String := "#ff4d4d"

/-- `quality_color(value, good, ok, invert)`: maps a value (possibly
`None`, modelled by `Option`) and two thresholds to a tier color.
`invert = true` means lower is better (ping); `false` means higher is
better (Mbps). `None`, NaN and infinities always map to `RED`. -/
def quality_color (value : Option PFloat) (good ok : ℚ)
    (invert : Bool) : String :=
  match value with
  | none => RED
  | some .nan => RED
  | some .inf => RED
  | some .ninf => RED
  | some (.fin v) =>
      if invert then
        if v ≤ good then GREEN
        else if v ≤ ok then YELLOW
        else RED
      else
        if v ≥ good then GREEN
        else if v ≥ ok then YELLOW
        else RED

/-! ## Series splitter (`split_series_by_quality`) -/

/-- One output series: the x list and the y list built by the loop. -/
abbrev Series := List ℚ × List PFloat

/-- The loop body of `split_series_by_quality` over `zip(xs, ys)`:
classify each y and route the value to exactly one of the three series,
placing the NaN gap marker in the other two. -/
def splitGo (good ok : ℚ) (invert : Bool) :
    List (ℚ × PFloat) → Series × Series × Series
  | [] => (([], []), ([], []), ([], []))
  | (x, y) :: rest =>
      let ((xg, yg), (xy, yy), (xr, yr)) := splitGo good ok invert rest
      let col := quality_color (some y) good ok invert
      if col = GREEN then
        ((x :: xg, y :: yg), (x :: xy, .nan :: yy), (x :: xr, .nan :: yr))
      else if col = YELLOW then
        ((x :: xg, .nan :: yg), (x :: xy, y :: yy), (x :: xr, .nan :: yr))
      else
        ((x :: xg, .nan :: yg), (x :: xy, .nan :: yy), (x :: xr, y :: yr))

/-- `split_series_by_quality(xs, ys, good, ok, invert)`: partition a
time series into green/yellow/red sub-series over `zip(xs, ys)`. -/
def split_series_by_quality (xs : List ℚ) (ys : List PFloat)
    (good ok : ℚ) (invert : Bool) : Series × Series × Series :=
  splitGo good ok invert (xs.zip ys)

/-! ## String machinery shared by the adapter picker and ping parser

Python's `str.lower`, `str.startswith`, `in` (substring), `str.find`
and slicing, modelled over `List Char`. -/

/-- Python `str.lower()` on one character: ASCII letters, plus the
Cyrillic range the Russian UI strings use. -/
def pyLowerChar (c : Char) : Char :=
  if 'A' ≤ c ∧ c ≤ 'Z' then Char.ofNat (c.toNat + 32)
  else if 'А' ≤ c ∧ c ≤ 'Я' then Char.ofNat (c.toNat + 32)
  else if c = 'Ё' then 'ё'
  else c

/-- `name.lower()` as a character list. -/
def pyLower (s : String) : List Char := s.data.map pyLowerChar

/-- `s.startswith(pat)`. -/
def startsWithCh : List Char → List Char → Bool
  | [], _ => true
  | _ :: _, [] => false
  | p :: ps, c :: cs => p == c && startsWithCh ps cs

/-- Locate the first occurrence of `pat` in `s`
(Python `idx = s.find(pat)` with `idx != -1`): returns the text before
the occurrence and the text after it (`s[:idx]`, `s[idx+len(pat):]`),
or `none` when `pat` does not occur. -/
def splitFirst (pat : List Char) : List Char → Option (List Char × List Char)
  | [] => if startsWithCh pat [] then some ([], []) else none
  | c :: cs =>
      if startsWithCh pat (c :: cs) then some ([], (c :: cs).drop pat.length)
      else
        match splitFirst pat cs with
        | none => none
        | some (b, a) => some (c :: b, a)

/-- Python `pat in s`: substring containment. -/
def containsSub (pat s : List Char) : Bool := (splitFirst pat s).isSome

/-! ## Adapter enumeration and selection (`pick_active_adapter_name`) -/

/-- The `isup`/`speed` fields of one `psutil.net_if_stats()` entry. -/
structure IfStats where
  isup : Bool
  speed : ℕ
deriving DecidableEq, Repr

/-- One `psutil.net_if_addrs()` entry: the address family (as its
string form, Python `str(fam)`) and the bound address. -/
structure IfAddr where
  family : String
  address : String
deriving DecidableEq, Repr

/-- The fixed deny-list matched as case-insensitive substrings. -/
def denyList : List String :=
  ["virtual", "vmware", "hyper-v", "vbox", "loopback", "tunnel", "tap",
   "tun", "vpn", "wintun", "wireguard"]

/-- The two `continue` filters of `pick_active_adapter_name`:
`name.lower().startswith(("lo", "loopback"))` or any deny-list entry
occurring as a substring of `name.lower()`. -/
def nic_denied (name : String) : Bool :=
  let low := pyLower name
  startsWithCh "lo".data low || startsWithCh "loopback".data low ||
    denyList.any (fun pat => containsSub pat.data low)

/-- The body of the `ip_score` loop: an address scores 10 when its
family string is non-empty and ends with `AF_INET`, and its address is
non-empty and not `127.0.0.1`. -/
def addrQualifies (a : IfAddr) : Bool :=
  a.family != "" && a.family.endsWith "AF_INET" &&
    a.address != "" && a.address != "127.0.0.1"

/-- A candidate's score: `ip_score + speed_score / 10` where `ip_score`
accumulates 10 per qualifying address and `speed_score` is
`st.speed if st.speed else 0`. -/
def nic_score (addrs : List IfAddr) (speed : ℕ) : ℚ :=
  let ip_score : ℚ :=
    addrs.foldl (fun acc a => if addrQualifies a then acc + 10 else acc) 0
  let speed_score : ℚ := if speed ≠ 0 then (speed : ℚ) else 0
  ip_score + speed_score / 10

/-- Python tuple comparison `(score, name) < (score, name)`: score
first, then code-point-lexicographic string comparison. -/
def strLtCh : List Char → List Char → Bool
  | [], [] => false
  | [], _ :: _ => true
  | _ :: _, [] => false
  | a :: as, b :: bs => if a < b then true else if b < a then false else strLtCh as bs

/-- Strict tuple order used by `candidates.sort(reverse=True)`. -/
def ltCand (a b : ℚ × String) : Bool :=
  if a.1 < b.1 then true
  else if b.1 < a.1 then false
  else strLtCh a.2.data b.2.data

/-- `candidates.sort(reverse=True); candidates[0]`: the maximum in the
tuple order (the sort is stable, so among equal tuples the
first-appended wins; tuples with distinct names are never equal). -/
def pickMax : List (ℚ × String) → Option (ℚ × String)
  | [] => none
  | c :: rest => some (rest.foldl (fun best x => if ltCand best x then x else best) c)

/-- The "no network" sentinel (`"Нет сети"`, Russian for "no network"). -/
def noNetwork : String := "Нет сети"

/-- `pick_active_adapter_name()`: filter up, non-denied interfaces,
score them, pick the best tuple; fall back to the first up interface,
then to the sentinel. `stats` is `psutil.net_if_stats()` in dict
(insertion/enumeration) order; `addrs` is `psutil.net_if_addrs()`
lookup with `.get(name, [])`. -/
def pick_active_adapter_name (stats : List (String × IfStats))
    (addrs : String → List IfAddr) : String :=
  let candidates := stats.filterMap (fun p =>
    if p.2.isup && !(nic_denied p.1) then
      some (nic_score (addrs p.1) p.2.speed, p.1)
    else none)
  match pickMax candidates with
  | some c => c.2
  | none =>
      match stats.find? (fun p => p.2.isup) with
      | some p => p.1
      | none => noNetwork

/-- Reference definition written from the spec's words for claim C6
(with the tie-break as amended): disqualify up interfaces whose
lowered name contains a deny-list entry or starts with "lo"; score
survivors as `10 × (count of non-loopback IPv4 addresses) +
linkSpeed/10`; pick the highest score, ties broken by the greater
(score, name) tuple, i.e. by descending name; if no candidate
survives, fall back to any up interface (first in enumeration order);
if none are up, return the "no network" sentinel. -/
def pickSpecC6 (stats : List (String × IfStats))
    (addrs : String → List IfAddr) : String :=
  let disqualified : String → Bool := fun name =>
    let low := pyLower name
    denyList.any (fun pat => containsSub pat.data low) ||
      startsWithCh "lo".data low
  let score : String → IfStats → ℚ := fun name st =>
    10 * (((addrs name).countP addrQualifies : ℕ) : ℚ) + (st.speed : ℚ) / 10
  let candidates := stats.filterMap (fun p =>
    if p.2.isup && !(disqualified p.1) then some (score p.1 p.2, p.1) else none)
  match pickMax candidates with
  | some c => c.2
  | none =>
      match stats.find? (fun p => p.2.isup) with
      | some p => p.1
      | none => noNetwork

/-! ## Latency prober (`ping_once`)

The process invocation itself is platform I/O; what the claims concern
is the pure mapping from process outcome (or launch failure) to the
probe result, which is embedded here in full. -/

/-- The outcome of the `subprocess.run` call: either the launch threw
(caught by the outer `except`), or the process ran producing captured
stdout, stderr and an exit code. -/
inductive ProcResult where
  | launchError : ProcResult
  | ran (stdout stderr : String) (returncode : ℤ) : ProcResult

/-- `s = out.lower().replace(" ", "")`. -/
def pyProcessOut (out : String) : List Char :=
  (out.data.map pyLowerChar).filter (fun c => c != ' ')

/-- Digits to a natural number. -/
def natOfDigits (ds : List Char) : ℕ :=
  ds.foldl (fun n c => 10 * n + (c.toNat - '0'.toNat)) 0

/-- Exponent tail after `e`/`E`: optional sign then digits. -/
def pyExpTail (r : List Char) : Option ℚ :=
  let sgn : ℤ := if r.head? = some '-' then -1 else 1
  let r1 := if r.head? = some '-' ∨ r.head? = some '+' then r.tail else r
  let ds := r1.takeWhile Char.isDigit
  let rest := r1.dropWhile Char.isDigit
  if ds = [] ∨ rest ≠ [] then none
  else some ((10 : ℚ) ^ (sgn * (natOfDigits ds : ℤ)))

/-- The multiplier contributed by an optional exponent suffix. -/
def pyExp (s : List Char) : Option ℚ :=
  match s with
  | [] => some 1
  | c :: r => if c = 'e' ∨ c = 'E' then pyExpTail r else none

/-- An unsigned Python float literal: digits, optional `.digits`,
optional exponent; at least one digit is required. (Python's `float`
additionally accepts `inf`/`nan` — for which the subsequent
`int(round(...))` raises and the code returns `None`, the same outcome
this model gives by rejecting them here — and digit-group underscores,
which never occur in ping output and are not modelled.) -/
def pyFloatUnsigned (s : List Char) : Option ℚ :=
  let ip := s.takeWhile Char.isDigit
  let r1 := s.dropWhile Char.isDigit
  if r1.head? = some '.' then
    let r2 := r1.tail
    let fp := r2.takeWhile Char.isDigit
    let r3 := r2.dropWhile Char.isDigit
    if ip = [] ∧ fp = [] then none
    else
      (pyExp r3).map (fun e =>
        ((natOfDigits ip : ℚ) + (natOfDigits fp : ℚ) / 10 ^ fp.length) * e)
  else
    if ip = [] then none
    else (pyExp r1).map (fun e => (natOfDigits ip : ℚ) * e)

/-- `float(val)` on a string: optional sign then an unsigned literal. -/
def pyFloat (s : List Char) : Option ℚ :=
  if s.head? = some '-' then (pyFloatUnsigned s.tail).map (fun q => -q)
  else if s.head? = some '+' then pyFloatUnsigned s.tail
  else pyFloatUnsigned s

/-- Python's `round` to an integer: round-half-to-even. -/
def pyRound (q : ℚ) : ℤ :=
  let f := ⌊q⌋
  let r := q - f
  if r < 1 / 2 then f
  else if 1 / 2 < r then f + 1
  else if f % 2 = 0 then f else f + 1

/-- One `time=...ms`-shaped extraction attempt. Returns `none` when the
token (or the closing unit) is absent — the code then falls through to
the localized variant — and `some r` when the branch `return`s `r`
(`r = none` when `float(val)` or the rounding raised). -/
def tryToken (tok unit s : List Char) : Option (Option ℤ) :=
  match splitFirst tok s with
  | none => none
  | some (_, t) =>
      match splitFirst unit t with
      | none => none
      | some (val, _) =>
          let v := val.filter (fun c => c != '<')
          some (match pyFloat v with
                | none => none
                | some q => some (pyRound q))

/-- The parsing tail of `ping_once` after the process ran: non-zero
exit gives `None`; otherwise try `time=…ms`, then the Russian
`время=…мс`, else `None`. -/
def ping_parse (out : String) (returncode : ℤ) : Option ℤ :=
  if returncode ≠ 0 then none
  else
    let s := pyProcessOut out
    match tryToken "time=".data "ms".data s with
    | some r => r
    | none =>
        match tryToken "время=".data "мс".data s with
        | some r => r
        | none => none

/-- `ping_once`: the whole body sits in `try/except`, so a launch
failure yields `None`; otherwise stdout and stderr are concatenated
and parsed. -/
def ping_once (p : ProcResult) : Option ℤ :=
  match p with
  | .launchError => none
  | .ran out err rc => ping_parse (out ++ err) rc

/-! ## History ring buffers (`__init__` prefill, `tick_stats` appends) -/

/-- `collections.deque(maxlen := cap)` append: drop from the left when
the buffer would exceed `cap`. -/
def dq_append {α : Type} (cap : ℕ) (xs : List α) (x : α) : List α :=
  let ys := xs ++ [x]
  ys.drop (ys.length - cap)

def simple_smooth_len : ℕ := 10

def buf_len : ℕ := 240

/-- The six history buffers of `NetPulseWindow`. -/
structure HistState where
  simple_hist_total : List ℚ
  simple_hist_down : List ℚ
  simple_hist_up : List ℚ
  t_hist : List ℚ
  mbps_hist : List ℚ
  ping_hist : List PFloat
deriving Repr

/-- Buffer creation in `__init__`: three smoothing windows pre-filled
with `0.0`, the time ring with `now`, the rate ring with `0.0`, the
latency ring with NaN. -/
def initHist (now : ℚ) : HistState :=
  ⟨List.replicate simple_smooth_len 0,
   List.replicate simple_smooth_len 0,
   List.replicate simple_smooth_len 0,
   List.replicate buf_len now,
   List.replicate buf_len 0,
   List.replicate buf_len .nan⟩

/-- The append block of `tick_stats`: one value is appended to each of
the six buffers per tick (`float(last_ping_ms)` when a latency is
known, NaN otherwise). -/
def tickHist (h : HistState) (twall simpleTotal simpleDown simpleUp graphTotal : ℚ)
    (lastPing : Option ℤ) : HistState :=
  { simple_hist_total := dq_append simple_smooth_len h.simple_hist_total simpleTotal
    simple_hist_down := dq_append simple_smooth_len h.simple_hist_down simpleDown
    simple_hist_up := dq_append simple_smooth_len h.simple_hist_up simpleUp
    t_hist := dq_append buf_len h.t_hist twall
    mbps_hist := dq_append buf_len h.mbps_hist graphTotal
    ping_hist := dq_append buf_len h.ping_hist
      (match lastPing with
       | some m => .fin (m : ℚ)
       | none => .nan) }

/-! ## Probe counters (`request_ping` / `on_ping_done`) -/

/-- The probe bookkeeping fields of `NetPulseWindow`. -/
structure ProbeState where
  ping_sent : ℕ
  ping_ok : ℕ
  ping_fail : ℕ
  last_ping_ms : Option ℤ
deriving DecidableEq, Repr

/-- `__init__`: `ping_sent = ping_ok = ping_fail = 0`,
`last_ping_ms = None`. -/
def probeInit : ProbeState := ⟨0, 0, 0, none⟩

/-- The two events that touch the probe counters: `request_ping`
dispatching a task, and `on_ping_done` receiving a completion. -/
inductive ProbeEvent where
  | dispatch : ProbeEvent
  | complete (ms : Option ℤ) : ProbeEvent

/-- `request_ping` increments `ping_sent`; `on_ping_done` increments
`ping_ok` and stores the latency when the result is an `int`, else
increments `ping_fail` and clears it. -/
def probeStep (s : ProbeState) : ProbeEvent → ProbeState
  | .dispatch => { s with ping_sent := s.ping_sent + 1 }
  | .complete (some m) =>
      { s with ping_ok := s.ping_ok + 1, last_ping_ms := some m }
  | .complete none =>
      { s with ping_fail := s.ping_fail + 1, last_ping_ms := none }

/-- Run a trace of probe events from a state. -/
def probeRun (s : ProbeState) (tr : List ProbeEvent) : ProbeState :=
  tr.foldl probeStep s

/-- Number of dispatches in a trace. -/
def countDispatch (tr : List ProbeEvent) : ℕ :=
  tr.countP (fun e => match e with | .dispatch => true | _ => false)

/-- Number of delivered completions in a trace. -/
def countComplete (tr : List ProbeEvent) : ℕ :=
  tr.countP (fun e => match e with | .complete _ => true | _ => false)

/-- A trace is causal when no prefix delivers more completions than it
has dispatched probes: every `on_ping_done` call is the one completion
signal of some earlier `request_ping` task. -/
def causalTrace (tr : List ProbeEvent) : Prop :=
  ∀ k, countComplete (tr.take k) ≤ countDispatch (tr.take k)

/-! ## Theorems -/

lemma clampDelta_nonneg (prev cur : ℕ) : 0 ≤ clampDelta prev cur :=
  le_max_left 0 _

lemma dt_pos (pt now : ℚ) : (0 : ℚ) < max (50 / 1000) (now - pt) :=
  lt_of_lt_of_le (by norm_num) (le_max_left _ _)

lemma rate_expr_nonneg (d : ℤ) (hd : 0 ≤ d) (dt : ℚ) (hdt : 0 < dt) :
    (0 : ℚ) ≤ (d : ℚ) * 8 / dt / 1000000 := by
  apply div_nonneg (div_nonneg (mul_nonneg ?_ (by norm_num)) hdt.le) (by norm_num)
  exact_mod_cast hd

/-- C1: for an adapter seen in a previous tick, the stored per-tick
rates equal the reference definition `ratesSpecC1` (dt floored at
50 ms, deltas clamped at 0, `up = dSent*8/dt/1e6`,
`down = dRecv*8/dt/1e6`, `total = up + down`); in particular
bytesSent 1,000,000 → 2,000,000 and bytesReceived
5,000,000 → 7,000,000 over a measured 1.0 s interval derive
up = 8.0 Mbps, down = 16.0 Mbps, total = 24.0 Mbps. -/
theorem tick_rates_match_reference :
    (∀ (ps pr : ℕ) (pt : ℚ) (sent recv : ℕ) (now : ℚ),
        (tick_nic (some ⟨ps, pr, pt⟩) sent recv now).2 =
          ratesSpecC1 ps pr pt sent recv now) ∧
      (tick_nic (some ⟨1000000, 5000000, 0⟩) 2000000 7000000 1).2 =
        ⟨8, 16, 24⟩ := by
  have main : ∀ (ps pr : ℕ) (pt : ℚ) (sent recv : ℕ) (now : ℚ),
      (tick_nic (some ⟨ps, pr, pt⟩) sent recv now).2 =
        ratesSpecC1 ps pr pt sent recv now := by
    intro ps pr pt sent recv now
    have hup := rate_expr_nonneg _ (clampDelta_nonneg ps sent) _ (dt_pos pt now)
    have hdown := rate_expr_nonneg _ (clampDelta_nonneg pr recv) _ (dt_pos pt now)
    simp only [tick_nic, ratesSpecC1, clampDelta, Rates.mk.injEq]
    refine ⟨max_eq_right hup, max_eq_right hdown,
      max_eq_right (add_nonneg hup hdown)⟩
  refine ⟨main, ?_⟩
  rw [main]
  simp only [ratesSpecC1, Rates.mk.injEq]
  norm_num

/-- C2: the byte delta is clamped: it is never negative, and it is
exactly 0 whenever the cumulative counter decreased between
consecutive samples; consequently the stored up/down/total rates of
every tick (first-seen or not) are non-negative. -/
theorem rates_never_negative :
    (∀ prev cur : ℕ,
        0 ≤ clampDelta prev cur ∧ (cur < prev → clampDelta prev cur = 0)) ∧
      ∀ (st : Option NicLast) (sent recv : ℕ) (now : ℚ),
        0 ≤ ((tick_nic st sent recv now).2).up ∧
          0 ≤ ((tick_nic st sent recv now).2).down ∧
          0 ≤ ((tick_nic st sent recv now).2).total := by
  constructor
  · intro prev cur
    refine ⟨clampDelta_nonneg prev cur, fun h => ?_⟩
    have : (cur : ℤ) - prev ≤ 0 := by
      have : (cur : ℤ) < prev := by exact_mod_cast h
      omega
    simpa [clampDelta] using this
  · intro st sent recv now
    cases st with
    | none => exact ⟨le_refl 0, le_refl 0, le_refl 0⟩
    | some prev =>
        exact ⟨le_max_left 0 _, le_max_left 0 _, le_max_left 0 _⟩

/-- Witness for C2 at concrete inputs: a counter falling 10 → 3 gives a
zero delta, and the rates of a concrete tick are non-negative. -/
theorem rates_never_negative_witness :
    clampDelta 10 3 = 0 ∧
      0 ≤ ((tick_nic (some ⟨10, 10, 0⟩) 3 20 1).2).up :=
  ⟨(rates_never_negative.1 10 3).2 (by norm_num),
   (rates_never_negative.2 (some ⟨10, 10, 0⟩) 3 20 1).1⟩

/-- C3: an adapter not seen before yields all three rates exactly 0 for
that tick while its counters and timestamp are recorded as the
baseline; and the baseline is stored unconditionally — the new
baseline is `(sent, recv, now)` for first-seen and previously-seen
adapters alike. -/
theorem first_seen_zero_and_baseline :
    (∀ (sent recv : ℕ) (now : ℚ),
        tick_nic none sent recv now = (⟨sent, recv, now⟩, ⟨0, 0, 0⟩)) ∧
      ∀ (st : Option NicLast) (sent recv : ℕ) (now : ℚ),
        (tick_nic st sent recv now).1 = ⟨sent, recv, now⟩ := by
  refine ⟨fun sent recv now => rfl, fun st sent recv now => ?_⟩
  cases st <;> rfl

lemma green_ne_yellow : GREEN ≠ YELLOW := by decide

lemma green_ne_red : GREEN ≠ RED := by decide

lemma yellow_ne_red : YELLOW ≠ RED := by decide

lemma qc_true_green {v g o : ℚ} (h : v ≤ g) :
    quality_color (some (.fin v)) g o true = GREEN := by
  simp [quality_color, h]

lemma qc_true_yellow {v g o : ℚ} (h1 : ¬v ≤ g) (h2 : v ≤ o) :
    quality_color (some (.fin v)) g o true = YELLOW := by
  simp [quality_color, h1, h2]

lemma qc_true_red {v g o : ℚ} (h1 : ¬v ≤ g) (h2 : ¬v ≤ o) :
    quality_color (some (.fin v)) g o true = RED := by
  simp [quality_color, h1, h2]

lemma qc_false_green {v g o : ℚ} (h : g ≤ v) :
    quality_color (some (.fin v)) g o false = GREEN := by
  simp [quality_color, ge_iff_le, h]

lemma qc_false_yellow {v g o : ℚ} (h1 : ¬g ≤ v) (h2 : o ≤ v) :
    quality_color (some (.fin v)) g o false = YELLOW := by
  simp [quality_color, ge_iff_le, h1, h2]

lemma qc_false_red {v g o : ℚ} (h1 : ¬g ≤ v) (h2 : ¬o ≤ v) :
    quality_color (some (.fin v)) g o false = RED := by
  simp [quality_color, ge_iff_le, h1, h2]

lemma quality_color_cases (v : Option PFloat) (g o : ℚ) (i : Bool) :
    quality_color v g o i = GREEN ∨ quality_color v g o i = YELLOW ∨
      quality_color v g o i = RED := by
  rcases v with _ | v
  · exact Or.inr (Or.inr rfl)
  · cases v with
    | fin q =>
        cases i <;> simp only [quality_color] <;> split_ifs <;> simp
    | _ => exact Or.inr (Or.inr rfl)

/-- C4: with `lowerIsBetter = true`, the classifier returns Good iff
`v ≤ good`, Acceptable iff `good < v ≤ ok`, Poor iff `v` exceeds both
thresholds; with `lowerIsBetter = false`, Good iff `v ≥ good`,
Acceptable iff `ok ≤ v < good`, else Poor; absent, NaN and infinite
values are Poor unconditionally. With `goodMbps = 5.0`,
`okMbps = 0.5`: 3.0 is Acceptable, 6.0 is Good, 0.1 is Poor. -/
theorem classify_thresholds :
    (∀ g o v : ℚ,
        (quality_color (some (.fin v)) g o true = GREEN ↔ v ≤ g) ∧
          (quality_color (some (.fin v)) g o true = YELLOW ↔ g < v ∧ v ≤ o) ∧
          (quality_color (some (.fin v)) g o true = RED ↔ g < v ∧ o < v)) ∧
      (∀ g o v : ℚ,
        (quality_color (some (.fin v)) g o false = GREEN ↔ g ≤ v) ∧
          (quality_color (some (.fin v)) g o false = YELLOW ↔ o ≤ v ∧ v < g) ∧
          (quality_color (some (.fin v)) g o false = RED ↔ v < g ∧ v < o)) ∧
      (∀ (g o : ℚ) (i : Bool),
        quality_color none g o i = RED ∧
          quality_color (some .nan) g o i = RED ∧
          quality_color (some .inf) g o i = RED ∧
          quality_color (some .ninf) g o i = RED) ∧
      (quality_color (some (.fin 3)) 5 (1 / 2) false = YELLOW ∧
        quality_color (some (.fin 6)) 5 (1 / 2) false = GREEN ∧
        quality_color (some (.fin (1 / 10))) 5 (1 / 2) false = RED) := by
  have hGY := green_ne_yellow
  have hGR := green_ne_red
  have hYR := yellow_ne_red
  refine ⟨fun g o v => ?_, fun g o v => ?_, fun g o i => ?_, ?_, ?_, ?_⟩
  · rcases le_or_lt v g with h1 | h1
    · rw [qc_true_green h1]
      exact ⟨iff_of_true rfl h1,
        iff_of_false hGY fun hc => absurd h1 (not_le_of_lt hc.1),
        iff_of_false hGR fun hc => absurd h1 (not_le_of_lt hc.1)⟩
    · rcases le_or_lt v o with h2 | h2
      · rw [qc_true_yellow (not_le_of_lt h1) h2]
        exact ⟨iff_of_false (Ne.symm hGY) (not_le_of_lt h1),
          iff_of_true rfl ⟨h1, h2⟩,
          iff_of_false hYR fun hc => absurd h2 (not_le_of_lt hc.2)⟩
      · rw [qc_true_red (not_le_of_lt h1) (not_le_of_lt h2)]
        exact ⟨iff_of_false (Ne.symm hGR) (not_le_of_lt h1),
          iff_of_false (Ne.symm hYR) fun hc => absurd hc.2 (not_le_of_lt h2),
          iff_of_true rfl ⟨h1, h2⟩⟩
  · rcases le_or_lt g v with h1 | h1
    · rw [qc_false_green h1]
      exact ⟨iff_of_true rfl h1,
        iff_of_false hGY fun hc => absurd hc.2 (not_lt_of_le h1),
        iff_of_false hGR fun hc => absurd hc.1 (not_lt_of_le h1)⟩
    · rcases le_or_lt o v with h2 | h2
      · rw [qc_false_yellow (not_le_of_lt h1) h2]
        exact ⟨iff_of_false (Ne.symm hGY) (not_le_of_lt h1),
          iff_of_true rfl ⟨h2, h1⟩,
          iff_of_false hYR fun hc => absurd hc.2 (not_lt_of_le h2)⟩
      · rw [qc_false_red (not_le_of_lt h1) (not_le_of_lt h2)]
        exact ⟨iff_of_false (Ne.symm hGR) (not_le_of_lt h1),
          iff_of_false (Ne.symm hYR) fun hc => absurd h2 (not_lt_of_le hc.1),
          iff_of_true rfl ⟨h1, h2⟩⟩
  · exact ⟨rfl, rfl, rfl, rfl⟩
  · exact qc_false_yellow (by norm_num) (by norm_num)
  · exact qc_false_green (by norm_num)
  · exact qc_false_red (by norm_num) (by norm_num)

/-- Witness for C4: the concrete Acceptable sample of the scenario. -/
theorem classify_thresholds_witness :
    quality_color (some (.fin 3)) 5 (1 / 2) false = YELLOW :=
  classify_thresholds.2.2.2.1

lemma splitGo_eq (g o : ℚ) (i : Bool) (l : List (ℚ × PFloat)) :
    splitGo g o i l =
      ((l.map Prod.fst,
        l.map fun p =>
          if quality_color (some p.2) g o i = GREEN then p.2 else .nan),
       (l.map Prod.fst,
        l.map fun p =>
          if quality_color (some p.2) g o i = YELLOW then p.2 else .nan),
       (l.map Prod.fst,
        l.map fun p =>
          if quality_color (some p.2) g o i = RED then p.2 else .nan)) := by
  induction l with
  | nil => rfl
  | cons p rest ih =>
      obtain ⟨x, y⟩ := p
      rcases quality_color_cases (some y) g o i with h | h | h
      · simp [splitGo, ih, h, green_ne_yellow, green_ne_red,
          Ne.symm green_ne_yellow, Ne.symm green_ne_red]
      · simp [splitGo, ih, h, Ne.symm green_ne_yellow, yellow_ne_red,
          Ne.symm yellow_ne_red]
      · simp [splitGo, ih, h, Ne.symm green_ne_red, Ne.symm yellow_ne_red]

/-- C5: for equally long inputs, the splitter returns three series
whose x-lists are exactly the input x-list (no point reordered or
dropped), and whose y-lists carry, at every index, the original
y-value in the series whose tier matches that sample's classification
and the NaN gap marker in the other two. -/
theorem split_by_tier_parallel :
    ∀ (xs : List ℚ) (ys : List PFloat) (g o : ℚ) (i : Bool),
      xs.length = ys.length →
      (split_series_by_quality xs ys g o i).1.1 = xs ∧
        (split_series_by_quality xs ys g o i).2.1.1 = xs ∧
        (split_series_by_quality xs ys g o i).2.2.1 = xs ∧
        (split_series_by_quality xs ys g o i).1.2 =
          ys.map (fun y =>
            if quality_color (some y) g o i = GREEN then y else .nan) ∧
        (split_series_by_quality xs ys g o i).2.1.2 =
          ys.map (fun y =>
            if quality_color (some y) g o i = YELLOW then y else .nan) ∧
        (split_series_by_quality xs ys g o i).2.2.2 =
          ys.map (fun y =>
            if quality_color (some y) g o i = RED then y else .nan) := by
  intro xs ys g o i hlen
  have hx : (xs.zip ys).map Prod.fst = xs :=
    List.map_fst_zip xs ys (le_of_eq hlen)
  have hy : ∀ f : PFloat → PFloat,
      ((xs.zip ys).map fun p => f p.2) = ys.map f := by
    intro f
    have hsnd : (xs.zip ys).map Prod.snd = ys :=
      List.map_snd_zip xs ys (ge_of_eq hlen)
    calc ((xs.zip ys).map fun p => f p.2)
        = ((xs.zip ys).map Prod.snd).map f :=
          (List.map_map f Prod.snd (xs.zip ys)).symm
      _ = ys.map f := by rw [hsnd]
  simp only [split_series_by_quality, splitGo_eq]
  exact ⟨hx, hx, hx,
    hy fun y => if quality_color (some y) g o i = GREEN then y else .nan,
    hy fun y => if quality_color (some y) g o i = YELLOW then y else .nan,
    hy fun y => if quality_color (some y) g o i = RED then y else .nan⟩

/-- Witness for C5 at a concrete three-point series crossing all three
tiers. -/
theorem split_by_tier_parallel_witness :
    (split_series_by_quality [1, 2, 3] [.fin 6, .fin 3, .fin (1 / 10)]
        5 (1 / 2) false).1.1 = [1, 2, 3] :=
  (split_by_tier_parallel [1, 2, 3] [.fin 6, .fin 3, .fin (1 / 10)]
      5 (1 / 2) false rfl).1

/-- Counterexample to C6's tie-break. Interfaces `"a"` and `"b"`, both
up, neither denied, both with no addresses and zero link speed, hence
equal scores: enumeration order would select `"a"` (the first), but
`candidates.sort(reverse=True)` orders equal scores by descending
name, so the code selects `"b"`. -/
theorem pick_tiebreak_counterexample :
    nic_denied "a" = false ∧ nic_denied "b" = false ∧
      nic_score [] 0 = nic_score [] 0 ∧
      pick_active_adapter_name [("a", ⟨true, 0⟩), ("b", ⟨true, 0⟩)]
          (fun _ => []) = "b" ∧
      ("b" : String) ≠ "a" := by
  refine ⟨rfl, rfl, rfl, ?_, by decide⟩
  have hs : nic_score [] 0 = 0 := by simp [nic_score]
  have ha : nic_denied "a" = false := by decide
  have hb : nic_denied "b" = false := by decide
  simp only [pick_active_adapter_name, List.filterMap_cons, List.filterMap_nil,
    ha, hb, hs, Bool.not_false, Bool.and_true]
  decide

lemma startsWithCh_of_append (l₁ l₂ s : List Char)
    (h : startsWithCh (l₁ ++ l₂) s = true) : startsWithCh l₁ s = true := by
  induction l₁ generalizing s with
  | nil => rfl
  | cons a as ih =>
      cases s with
      | nil => simp [startsWithCh] at h
      | cons b bs =>
          simp only [List.cons_append, startsWithCh, Bool.and_eq_true] at h ⊢
          exact ⟨h.1, ih bs h.2⟩

lemma nic_denied_eq_spec (n : String) :
    nic_denied n =
      (denyList.any (fun pat => containsSub pat.data (pyLower n)) ||
        startsWithCh "lo".data (pyLower n)) := by
  unfold nic_denied
  cases hlo : startsWithCh "lo".data (pyLower n) with
  | true => simp [hlo]
  | false =>
      have hloop : startsWithCh "loopback".data (pyLower n) = false := by
        cases h : startsWithCh "loopback".data (pyLower n)
        · rfl
        · exact absurd (startsWithCh_of_append "lo".data "opback".data
            (pyLower n) h) (by rw [hlo]; simp)
      simp [hlo, hloop]

lemma score_foldl_eq (l : List IfAddr) :
    ∀ init : ℚ,
      l.foldl (fun acc a => if addrQualifies a then acc + 10 else acc) init =
        init + 10 * (l.countP addrQualifies : ℚ) := by
  induction l with
  | nil => intro init; simp
  | cons a as ih =>
      intro init
      rw [List.foldl_cons, ih, List.countP_cons]
      by_cases h : addrQualifies a = true
      · simp only [h, if_true, if_pos h]
        push_cast
        ring
      · rw [if_neg h, if_neg h]
        push_cast
        ring_nf

lemma nic_score_eq_spec (addrs : List IfAddr) (speed : ℕ) :
    nic_score addrs speed =
      10 * ((addrs.countP addrQualifies : ℕ) : ℚ) + (speed : ℚ) / 10 := by
  unfold nic_score
  rw [score_foldl_eq]
  by_cases h : speed = 0
  · subst h; norm_num
  · rw [if_pos h]
    ring

/-- C6 as amended: the adapter selection agrees everywhere with the
spec-worded reference `pickSpecC6` (deny-list filtering of up
interfaces, score `10 × IPv4-count + linkSpeed/10`, maximum score with
ties broken by descending name, fall back to the first up interface,
then the "no network" sentinel); and in the two-interface scenario —
one up interface whose lowered name starts with "lo", one up interface
that survives the deny filter — the surviving one is selected
regardless of the loopback's link speed. -/
theorem pick_active_amended :
    (∀ (stats : List (String × IfStats)) (addrs : String → List IfAddr),
        pick_active_adapter_name stats addrs = pickSpecC6 stats addrs) ∧
      ∀ (nameL nameO : String) (stL stO : IfStats)
        (addrs : String → List IfAddr),
        startsWithCh "lo".data (pyLower nameL) = true →
        stL.isup = true → stO.isup = true →
        nic_denied nameO = false →
        pick_active_adapter_name [(nameL, stL), (nameO, stO)] addrs = nameO := by
  constructor
  · intro stats addrs
    have hfun : (fun p : String × IfStats =>
        if p.2.isup && !(nic_denied p.1) then
          some (nic_score (addrs p.1) p.2.speed, p.1)
        else none) =
        (fun p : String × IfStats =>
          if p.2.isup && !((denyList.any fun pat =>
                containsSub pat.data (pyLower p.1)) ||
              startsWithCh "lo".data (pyLower p.1)) then
            some (10 * (((addrs p.1).countP addrQualifies : ℕ) : ℚ) +
              (p.2.speed : ℚ) / 10, p.1)
          else none) := by
      funext p
      rw [nic_denied_eq_spec, nic_score_eq_spec]
    simp only [pick_active_adapter_name, pickSpecC6]
    rw [hfun]
  · intro nameL nameO stL stO addrs hlo hupL hupO hden
    have hdenL : nic_denied nameL = true := by
      simp [nic_denied, hlo]
    simp only [pick_active_adapter_name, List.filterMap_cons, hupL, hupO,
      hdenL, hden, Bool.not_true, Bool.not_false, Bool.and_false,
      Bool.and_true, List.filterMap_nil]
    rfl

/-- Witness for C6's amended scenario: a loopback-named interface with
a huge link speed loses to a surviving "Ethernet" interface. -/
theorem pick_active_amended_witness :
    pick_active_adapter_name
        [("Loopback Pseudo-Interface 1", ⟨true, 10000⟩),
         ("Ethernet", ⟨true, 100⟩)] (fun _ => []) = "Ethernet" :=
  pick_active_amended.2 "Loopback Pseudo-Interface 1" "Ethernet"
    ⟨true, 10000⟩ ⟨true, 100⟩ (fun _ => []) rfl rfl rfl rfl

lemma splitFirst_before_mem (pat : List Char) :
    ∀ s b a : List Char, splitFirst pat s = some (b, a) → ∀ c ∈ b, c ∈ s := by
  intro s
  induction s with
  | nil =>
      intro b a h c hc
      unfold splitFirst at h
      split at h
      · cases h
        simp at hc
      · cases h
  | cons d ds ih =>
      intro b a h c hc
      unfold splitFirst at h
      split at h
      · cases h
        simp at hc
      · revert h
        rcases he : splitFirst pat ds with _ | ⟨b', a'⟩ <;> intro h
        · cases h
        · simp only [Option.some.injEq, Prod.mk.injEq] at h
          rcases h with ⟨hb, _⟩
          subst hb
          rcases List.mem_cons.mp hc with h | h
          · subst h
            exact List.mem_cons_self _ _
          · exact List.mem_cons_of_mem _ (ih b' a' he c h)

lemma splitFirst_after_mem (pat : List Char) :
    ∀ s b a : List Char, splitFirst pat s = some (b, a) → ∀ c ∈ a, c ∈ s := by
  intro s
  induction s with
  | nil =>
      intro b a h c hc
      unfold splitFirst at h
      split at h
      · cases h
        simp at hc
      · cases h
  | cons d ds ih =>
      intro b a h c hc
      unfold splitFirst at h
      split at h
      · cases h
        exact List.mem_of_mem_drop hc
      · revert h
        rcases he : splitFirst pat ds with _ | ⟨b', a'⟩ <;> intro h
        · cases h
        · simp only [Option.some.injEq, Prod.mk.injEq] at h
          rcases h with ⟨_, ha⟩
          subst ha
          exact List.mem_cons_of_mem _ (ih b' a' he c hc)

lemma pyExpTail_pos (r : List Char) (e : ℚ) (h : pyExpTail r = some e) :
    0 < e := by
  simp only [pyExpTail] at h
  split_ifs at h <;> cases h <;> exact zpow_pos (by norm_num) _

lemma pyExp_pos (r : List Char) (e : ℚ) (h : pyExp r = some e) : 0 < e := by
  rcases r with _ | ⟨c, rest⟩
  · simp only [pyExp] at h
    cases h
    norm_num
  · simp only [pyExp] at h
    split_ifs at h
    exact pyExpTail_pos _ _ h

lemma pyFloatUnsigned_nonneg (s : List Char) (q : ℚ)
    (h : pyFloatUnsigned s = some q) : 0 ≤ q := by
  simp only [pyFloatUnsigned] at h
  split_ifs at h
  · rcases Option.map_eq_some'.mp h with ⟨e, he, hq⟩
    subst hq
    exact mul_nonneg (by positivity) (pyExp_pos _ _ he).le
  · rcases Option.map_eq_some'.mp h with ⟨e, he, hq⟩
    subst hq
    exact mul_nonneg (by positivity) (pyExp_pos _ _ he).le

lemma pyFloat_nonneg (v : List Char) (q : ℚ) (hh : v.head? ≠ some '-')
    (h : pyFloat v = some q) : 0 ≤ q := by
  simp only [pyFloat] at h
  rw [if_neg hh] at h
  split_ifs at h <;> exact pyFloatUnsigned_nonneg _ _ h

lemma pyRound_nonneg (q : ℚ) (h : 0 ≤ q) : 0 ≤ pyRound q := by
  have hf : 0 ≤ ⌊q⌋ := Int.floor_nonneg.mpr h
  simp only [pyRound]
  split_ifs <;> omega

lemma tryToken_nonneg (tok unit s : List Char) (n : ℤ) (hm : '-' ∉ s)
    (h : tryToken tok unit s = some (some n)) : 0 ≤ n := by
  rcases h1 : splitFirst tok s with _ | ⟨b, t⟩
  · simp only [tryToken, h1] at h
    cases h
  · rcases h2 : splitFirst unit t with _ | ⟨val, rest⟩
    · simp only [tryToken, h1, h2] at h
      cases h
    · rcases h3 : pyFloat (val.filter fun c => c != '<') with _ | q
      · simp only [tryToken, h1, h2, h3] at h
        cases h
      · simp only [tryToken, h1, h2, h3, Option.some.injEq] at h
        subst h
        apply pyRound_nonneg
        apply pyFloat_nonneg _ _ _ h3
        intro hc
        have hmemf : '-' ∈ val.filter (fun c => c != '<') := by
          rcases hv : val.filter (fun c => c != '<') with _ | ⟨c0, cs⟩
          · rw [hv] at hc
            cases hc
          · rw [hv] at hc
            simp only [List.head?_cons, Option.some.injEq] at hc
            subst hc
            exact List.mem_cons_self _ _
        have hval : '-' ∈ val := List.mem_of_mem_filter hmemf
        have ht : '-' ∈ t := splitFirst_before_mem unit t val rest h2 _ hval
        exact hm (splitFirst_after_mem tok s b t h1 _ ht)

lemma ping_once_happy_path :
    ping_once (.ran "Reply from 1.1.1.1: bytes=32 time=23ms TTL=57" "" 0) =
      some 23 := by
  have hs1 : splitFirst "time=".data
      (pyProcessOut ("Reply from 1.1.1.1: bytes=32 time=23ms TTL=57" ++ "")) =
      some ("replyfrom1.1.1.1:bytes=32".data, "23msttl=57".data) := by decide
  have hs2 : splitFirst "ms".data "23msttl=57".data =
      some ("23".data, "ttl=57".data) := by decide
  have hv : "23".data.filter (fun c => c != '<') = "23".data := by decide
  have hf : pyFloat "23".data = some 23 := by
    simp +decide [pyFloat, pyFloatUnsigned, pyExp, natOfDigits]
  have hr : pyRound 23 = 23 := by norm_num [pyRound]
  simp only [ping_once, ping_parse, tryToken, hs1, hs2, hv, hf, hr]
  norm_num

/-- C7: a successful probe whose output carries `time=23ms` yields the
integer 23; with exit code 0 but neither a `time=` nor a localized
`время=` token in the processed output the result is the absent value
(not zero); a non-zero exit code yields the absent value; and a launch
failure (the surrounding `try/except`) yields the absent value — the
function is total, no exception escapes. -/
theorem ping_probe_outcomes :
    ping_once (.ran "Reply from 1.1.1.1: bytes=32 time=23ms TTL=57" "" 0) =
        some 23 ∧
      (∀ (out err : String) (rc : ℤ),
        rc = 0 →
        containsSub "time=".data (pyProcessOut (out ++ err)) = false →
        containsSub "время=".data (pyProcessOut (out ++ err)) = false →
        ping_once (.ran out err rc) = none) ∧
      (∀ (out err : String) (rc : ℤ),
        rc ≠ 0 → ping_once (.ran out err rc) = none) ∧
      ping_once .launchError = none := by
  refine ⟨ping_once_happy_path, ?_, ?_, rfl⟩
  · intro out err rc hrc h1 h2
    subst hrc
    have hn1 : splitFirst "time=".data (pyProcessOut (out ++ err)) = none := by
      rcases hc : splitFirst "time=".data (pyProcessOut (out ++ err)) with _ | v
      · rfl
      · rw [containsSub, hc] at h1
        cases h1
    have hn2 : splitFirst "время=".data (pyProcessOut (out ++ err)) = none := by
      rcases hc : splitFirst "время=".data (pyProcessOut (out ++ err)) with _ | v
      · rfl
      · rw [containsSub, hc] at h2
        cases h2
    simp only [ping_once, ping_parse, tryToken, hn1, hn2]
    norm_num
  · intro out err rc hrc
    simp only [ping_once, ping_parse, if_pos hrc]

/-- Witness for C7 at concrete outcomes: a token-free output with exit
code 0, and a non-zero exit. -/
theorem ping_probe_outcomes_witness :
    ping_once (.ran "Request timed out." "" 0) = none ∧
      ping_once (.ran "hello" "" 1) = none :=
  ⟨ping_probe_outcomes.2.1 "Request timed out." "" 0 rfl
      (by decide) (by decide),
   ping_probe_outcomes.2.2.1 "hello" "" 1 (by norm_num)⟩

/-- Counterexample to C9: the claim quantifies over every possible
ping-output text, but a text carrying a negative value in its time
token, such as `time=-5ms` with exit code 0, makes `ping_once` return
the negative integer −5. -/
theorem ping_negative_counterexample :
    ping_once (.ran "time=-5ms" "" 0) = some (-5) ∧ (-5 : ℤ) < 0 := by
  refine ⟨?_, by norm_num⟩
  have hs1 : splitFirst "time=".data (pyProcessOut ("time=-5ms" ++ "")) =
      some ([], "-5ms".data) := by decide
  have hs2 : splitFirst "ms".data "-5ms".data = some ("-5".data, []) := by
    decide
  have hv : "-5".data.filter (fun c => c != '<') = "-5".data := by decide
  have hf : pyFloat "-5".data = some (-5) := by
    simp +decide [pyFloat, pyFloatUnsigned, pyExp, natOfDigits]
  have hr : pyRound (-5) = -5 := by norm_num [pyRound]
  simp only [ping_once, ping_parse, tryToken, hs1, hs2, hv, hf, hr]
  norm_num

/-- C9 as amended: the probe result is always either an integer or the
absent value, and it is a non-negative integer whenever the processed
output contains no minus sign (as every genuine ping output does); a
negative integer can only arise from an output whose time token itself
carries a negative number. -/
theorem ping_result_nonneg_amended :
    ∀ (out err : String) (rc : ℤ) (n : ℤ),
      '-' ∉ pyProcessOut (out ++ err) →
      ping_once (.ran out err rc) = some n → 0 ≤ n := by
  intro out err rc n hm h
  by_cases hrc : rc ≠ 0
  · simp only [ping_once, ping_parse, if_pos hrc] at h
    cases h
  · rcases h1 : tryToken "time=".data "ms".data (pyProcessOut (out ++ err))
        with _ | r
    · rcases h2 : tryToken "время=".data "мс".data (pyProcessOut (out ++ err))
          with _ | r2
      · simp only [ping_once, ping_parse, if_neg hrc, h1, h2] at h
        cases h
      · simp only [ping_once, ping_parse, if_neg hrc, h1, h2] at h
        subst h
        exact tryToken_nonneg _ _ _ _ hm h2
    · simp only [ping_once, ping_parse, if_neg hrc, h1] at h
      subst h
      exact tryToken_nonneg _ _ _ _ hm h1

/-- Witness for C9's amended statement at the concrete happy-path
output. -/
theorem ping_result_nonneg_amended_witness :
    (0 : ℤ) ≤ 23 :=
  ping_result_nonneg_amended "Reply from 1.1.1.1: bytes=32 time=23ms TTL=57"
    "" 0 23 (by decide) ping_once_happy_path

lemma dq_append_length {α : Type} (cap : ℕ) (xs : List α) (x : α)
    (h : xs.length = cap) : (dq_append cap xs x).length = cap := by
  simp only [dq_append, List.length_drop, List.length_append,
    List.length_cons, List.length_nil, h]
  omega

lemma dq_append_full {α : Type} (cap : ℕ) (xs : List α) (x : α)
    (h : xs.length = cap) (hc : 0 < cap) :
    dq_append cap xs x = xs.tail ++ [x] := by
  rcases xs with _ | ⟨y, ys⟩
  · simp at h
    omega
  · simp only [dq_append]
    have hl : ((y :: ys) ++ [x]).length - cap = 1 := by
      simp only [List.length_append, List.length_cons, List.length_nil]
      simp only [List.length_cons] at h
      omega
    rw [hl]
    simp

lemma dq_foldl {α : Type} (cap : ℕ) :
    ∀ ys xs : List α, xs.length = cap →
      ys.foldl (dq_append cap) xs = (xs ++ ys).drop ys.length := by
  intro ys
  induction ys with
  | nil => intro xs h; simp
  | cons y ys ih =>
      intro xs h
      rw [List.foldl_cons, ih _ (dq_append_length cap xs y h)]
      have h2 : dq_append cap xs y = (xs ++ [y]).drop 1 := by
        simp only [dq_append]
        congr 1
        simp [h]
      rw [h2,
        show xs ++ y :: ys = (xs ++ [y]) ++ ys from by simp,
        List.length_cons, Nat.add_comm ys.length 1, ← List.drop_drop,
        List.drop_append_of_le_length
          (show 1 ≤ (xs ++ [y]).length from by simp)]

/-- C8: the buffers are created pre-filled at exactly their capacity
(10-sample smoothing windows of zero rate, 240-sample time/rate rings
of `now`/zero and a latency ring of the NaN "absent" marker); an
append on a full buffer evicts exactly the oldest entry, keeping the
length; after capacity+1 appends the length is unchanged and every
original sample, the oldest included, is gone; and the per-tick append
block preserves all six lengths. -/
theorem history_ring_capacity :
    (∀ now : ℚ,
        (initHist now).simple_hist_total.length = simple_smooth_len ∧
          (initHist now).simple_hist_down.length = simple_smooth_len ∧
          (initHist now).simple_hist_up.length = simple_smooth_len ∧
          (initHist now).t_hist.length = buf_len ∧
          (initHist now).mbps_hist.length = buf_len ∧
          (initHist now).ping_hist.length = buf_len ∧
          (∀ y ∈ (initHist now).simple_hist_total, y = 0) ∧
          (∀ y ∈ (initHist now).mbps_hist, y = 0) ∧
          (∀ t ∈ (initHist now).t_hist, t = now) ∧
          (∀ y ∈ (initHist now).ping_hist, y = PFloat.nan)) ∧
      (∀ {α : Type} (cap : ℕ) (xs : List α) (x : α),
        xs.length = cap → 0 < cap →
        dq_append cap xs x = xs.tail ++ [x] ∧
          (dq_append cap xs x).length = cap) ∧
      (∀ {α : Type} (xs ys : List α),
        xs.length = buf_len → ys.length = buf_len + 1 →
        (ys.foldl (dq_append buf_len) xs).length = buf_len ∧
          ys.foldl (dq_append buf_len) xs = (xs ++ ys).drop (buf_len + 1)) ∧
      ∀ (st : HistState) (tw a b c d : ℚ) (lp : Option ℤ),
        st.simple_hist_total.length = simple_smooth_len →
        st.simple_hist_down.length = simple_smooth_len →
        st.simple_hist_up.length = simple_smooth_len →
        st.t_hist.length = buf_len →
        st.mbps_hist.length = buf_len →
        st.ping_hist.length = buf_len →
        (tickHist st tw a b c d lp).simple_hist_total.length =
            simple_smooth_len ∧
          (tickHist st tw a b c d lp).simple_hist_down.length =
            simple_smooth_len ∧
          (tickHist st tw a b c d lp).simple_hist_up.length =
            simple_smooth_len ∧
          (tickHist st tw a b c d lp).t_hist.length = buf_len ∧
          (tickHist st tw a b c d lp).mbps_hist.length = buf_len ∧
          (tickHist st tw a b c d lp).ping_hist.length = buf_len := by
  refine ⟨?_, ?_, ?_, ?_⟩
  · intro now
    refine ⟨?_, ?_, ?_, ?_, ?_, ?_, ?_, ?_, ?_, ?_⟩ <;>
      simp only [initHist, List.length_replicate] <;>
      · intro y hy
        exact List.eq_of_mem_replicate hy
  · intro α cap xs x h hc
    exact ⟨dq_append_full cap xs x h hc, dq_append_length cap xs x h⟩
  · intro α xs ys hx hy
    constructor
    · rw [dq_foldl buf_len ys xs hx]
      simp only [List.length_drop, List.length_append, hx, hy]
      omega
    · rw [dq_foldl buf_len ys xs hx, hy]
  · intro st tw a b c d lp h1 h2 h3 h4 h5 h6
    simp only [tickHist]
    exact ⟨dq_append_length _ _ _ h1, dq_append_length _ _ _ h2,
      dq_append_length _ _ _ h3, dq_append_length _ _ _ h4,
      dq_append_length _ _ _ h5, dq_append_length _ _ _ h6⟩

/-- Witness for C8: a full three-element buffer of capacity 3 evicts
its oldest entry on append. -/
theorem history_ring_capacity_witness :
    dq_append 3 [10, 20, 30] (40 : ℕ) = [20, 30, 40] ∧
      (dq_append 3 [10, 20, 30] (40 : ℕ)).length = 3 :=
  ⟨((history_ring_capacity.2.1 3 [10, 20, 30] 40 rfl
      (by norm_num)).1).trans rfl,
   (history_ring_capacity.2.1 3 [10, 20, 30] 40 rfl (by norm_num)).2⟩

lemma probeRun_cons (s : ProbeState) (e : ProbeEvent)
    (es : List ProbeEvent) :
    probeRun s (e :: es) = probeRun (probeStep s e) es := rfl

lemma countDispatch_cons (e : ProbeEvent) (es : List ProbeEvent) :
    countDispatch (e :: es) =
      countDispatch es +
        (match e with | .dispatch => 1 | .complete _ => 0) := by
  rcases e with _ | ms <;> simp [countDispatch, List.countP_cons]

lemma countComplete_cons (e : ProbeEvent) (es : List ProbeEvent) :
    countComplete (e :: es) =
      countComplete es +
        (match e with | .dispatch => 0 | .complete _ => 1) := by
  rcases e with _ | ms <;> simp [countComplete, List.countP_cons]

lemma probeRun_counts :
    ∀ (tr : List ProbeEvent) (s : ProbeState),
      (probeRun s tr).ping_sent = s.ping_sent + countDispatch tr ∧
        (probeRun s tr).ping_ok + (probeRun s tr).ping_fail =
          s.ping_ok + s.ping_fail + countComplete tr := by
  intro tr
  induction tr with
  | nil =>
      intro s
      simp [probeRun, countDispatch, countComplete]
  | cons e es ih =>
      intro s
      rw [probeRun_cons, countDispatch_cons, countComplete_cons,
        (ih (probeStep s e)).1, (ih (probeStep s e)).2]
      rcases e with _ | ms
      · exact ⟨by simp only [probeStep]; omega, by simp only [probeStep]; omega⟩
      · rcases ms with _ | m
        · exact ⟨by simp only [probeStep]; omega,
            by simp only [probeStep]; omega⟩
        · exact ⟨by simp only [probeStep]; omega,
            by simp only [probeStep]; omega⟩

/-- C10: dispatching a probe increments `ping_sent` by exactly 1 and
leaves `ping_ok`, `ping_fail` unchanged; delivering a completion
increments exactly one of `ping_ok` (integer result) or `ping_fail`
(absent result) and leaves `ping_sent` unchanged; and along every
causal trace from the initial state, `ping_sent` equals the number of
dispatches, `ping_ok + ping_fail` equals the number of delivered
completions, hence `ping_sent ≥ ping_ok + ping_fail` in every
reachable state. -/
theorem probe_counter_invariant :
    (∀ s : ProbeState, probeStep s .dispatch =
        ⟨s.ping_sent + 1, s.ping_ok, s.ping_fail, s.last_ping_ms⟩) ∧
      (∀ (s : ProbeState) (m : ℤ), probeStep s (.complete (some m)) =
        ⟨s.ping_sent, s.ping_ok + 1, s.ping_fail, some m⟩) ∧
      (∀ s : ProbeState, probeStep s (.complete none) =
        ⟨s.ping_sent, s.ping_ok, s.ping_fail + 1, none⟩) ∧
      ∀ tr : List ProbeEvent, causalTrace tr →
        (probeRun probeInit tr).ping_sent = countDispatch tr ∧
          (probeRun probeInit tr).ping_ok +
              (probeRun probeInit tr).ping_fail = countComplete tr ∧
          (probeRun probeInit tr).ping_ok +
              (probeRun probeInit tr).ping_fail ≤
            (probeRun probeInit tr).ping_sent := by
  refine ⟨fun s => rfl, fun s m => rfl, fun s => rfl, ?_⟩
  intro tr hc
  have Hs := (probeRun_counts tr probeInit).1
  have Hof := (probeRun_counts tr probeInit).2
  have hend := hc tr.length
  rw [List.take_length] at hend
  have e1 : probeInit.ping_sent = 0 := rfl
  have e2 : probeInit.ping_ok = 0 := rfl
  have e3 : probeInit.ping_fail = 0 := rfl
  rw [e1] at Hs
  rw [e2, e3] at Hof
  simp only [Nat.zero_add] at Hs Hof
  exact ⟨Hs, Hof, by omega⟩

/-- Witness for C10 on the concrete causal trace: dispatch, dispatch,
then one successful completion. -/
theorem probe_counter_invariant_witness :
    (probeRun probeInit
          [.dispatch, .dispatch, .complete (some 23)]).ping_ok +
        (probeRun probeInit
          [.dispatch, .dispatch, .complete (some 23)]).ping_fail ≤
      (probeRun probeInit
        [.dispatch, .dispatch, .complete (some 23)]).ping_sent :=
  (probe_counter_invariant.2.2.2 [.dispatch, .dispatch, .complete (some 23)]
    (by
      intro k
      rcases k with _ | _ | _ | k
      · decide
      · decide
      · decide
      · rw [List.take_of_length_le
          (by simp only [List.length_cons, List.length_nil]; omega)]
        decide)).2.2

end NetPulse
